import Mathlib

/-!
Verification development for the `go-index-html` HTTP directory-index server
(`main.go`).  The Go source is shallowly embedded: Go strings are modelled as
Lean `String` (whose logical model is `List Char`; all paths handled by the
program are ASCII, where Go's byte-wise operations and the char-wise model
agree), pure helper functions are translated directly, and the filesystem
facts a request handler observes (lstat/readlink/stat results, directory
entries, the contents of the `.index-sort` marker file, the query string) are
passed in as explicit inputs.

Functions of the Go standard library that the source calls (`path.Clean`,
`path.Join`, `path.Dir`, `path.IsAbs`, `html.EscapeString`,
`strings.Replace`, `sort.Sort`) are embedded from their documented semantics
and source, as noted at each definition.
-/

/-! ## Go `path` package model

`path.Clean` applies purely lexical normalization: the path is split on `/`,
empty and `.` components are dropped, `..` pops the previous component when
possible (on a rooted path a `..` that cannot pop is dropped; on a relative
path it is kept), and the result is reassembled, yielding `/` for an empty
rooted result and `.` for an empty relative result.  This is the algorithm of
Go's `path.Clean` (from the Go standard library, `path/path.go`). -/

/-- Split a character list on `'/'` (components may be empty). -/
def splitSlash : List Char → List (List Char)
  | [] => [[]]
  | c :: rest =>
    if c = '/' then [] :: splitSlash rest
    else
      match splitSlash rest with
      | [] => [[c]]
      | h :: t => (c :: h) :: t

/-- One step of `path.Clean`'s component processing, operating on a stack of
already-accepted components (innermost first).  Mirrors the `..` handling of
Go's `path.Clean`: pop when the stack has a non-`..` top; on a relative path
push `..` when nothing can be popped; on a rooted path drop it. -/
def cleanStep (rooted : Bool) (st : List (List Char)) (c : List Char) : List (List Char) :=
  if c = [] ∨ c = ['.'] then st
  else if c = ['.', '.'] then
    match st with
    | [] => if rooted then [] else [['.', '.']]
    | top :: rest => if top = ['.', '.'] then c :: st else rest
  else c :: st

/-- Reassemble path components with `'/'` separators. -/
def joinSegs : List (List Char) → List Char
  | [] => []
  | [s] => s
  | s :: t :: rest => s ++ '/' :: joinSegs (t :: rest)

/-- Character-level model of Go's `path.Clean`. -/
def goCleanList (l : List Char) : List Char :=
  match l with
  | [] => ['.']
  | c :: _ =>
    let rooted := c = '/'
    let segs := ((splitSlash l).foldl (cleanStep rooted) []).reverse
    match segs with
    | [] => if rooted then ['/'] else ['.']
    | s :: ss => if rooted then '/' :: joinSegs (s :: ss) else joinSegs (s :: ss)

/-- Model of Go's `path.Clean`. -/
def goClean (s : String) : String := ⟨goCleanList s.data⟩

/-- Model of Go's two-argument `path.Join`: skip leading empty elements, join
with `/`, and `Clean` the result (empty if both arguments are empty). -/
def goJoin (a b : String) : String :=
  if a = "" then (if b = "" then "" else goClean b)
  else goClean ⟨a.data ++ '/' :: b.data⟩

/-- The part of a path up to and including its final `'/'` (empty when there
is no slash); this is the `dir` half of Go's `path.Split`. -/
def dirPart (l : List Char) : List Char :=
  (l.reverse.dropWhile (fun c => ¬ (c = '/'))).reverse

/-- Model of Go's `path.Dir`: `Clean` of everything up to the final slash. -/
def goDir (s : String) : String := goClean ⟨dirPart s.data⟩

/-- Model of Go's `path.IsAbs`: nonempty and beginning with `'/'`. -/
def goIsAbs (s : String) : Bool :=
  match s.data with
  | '/' :: _ => true
  | _ => false

/-! ## The program's own path helpers (`main.go` lines 24-40) -/

/-- Embeds `startsWith` (main.go:24-29): a raw byte-prefix test. -/
def startsWith (s start : String) : Bool :=
  if s.data.length < start.data.length then false
  else s.data.take start.data.length = start.data

/-- Embeds `removeIfStartsWith` (main.go:31-36). -/
def removeIfStartsWith (s start : String) : String :=
  if ¬ startsWith s start then s
  else ⟨s.data.drop start.data.length⟩

/-- Embeds `translateForProxy` (main.go:38-40); the globals `proxyRoot` and
`jailRoot` are passed explicitly. -/
def translateForProxy (proxyRoot jailRoot s : String) : String :=
  goJoin proxyRoot (removeIfStartsWith s jailRoot)

/-- The local filesystem path a request path is translated to: `relPath`
stripping and `path.Join` onto the jail root, exactly as computed at
main.go:363-364 (and again at main.go:170-172). -/
def localPathOf (proxyRoot jailRoot uPath : String) : String :=
  goJoin jailRoot (removeIfStartsWith uPath proxyRoot)

/-! ## Specification-side path predicates

These formalize the specification's wording (normalized segment-wise
containment), for comparison against the program's raw-prefix tests. -/

/-- The nonempty `/`-separated components of a path string. -/
def pathSegs (s : String) : List (List Char) :=
  (splitSlash s.data).filter (fun c => ¬ (c = []))

/-- Boolean list-prefix test for component lists. -/
def segPrefixOf : List (List Char) → List (List Char) → Bool
  | [], _ => true
  | _ :: _, [] => false
  | a :: as, b :: bs => a = b ∧ segPrefixOf as bs

/-- Specification-side jail containment: `p` is `root` itself or a descendant
of it, matching on whole normalized path segments (so `/home/ftpx` is not
within `/home/ftp`). -/
def isWithin (root p : String) : Bool :=
  (goIsAbs p = goIsAbs root) ∧ segPrefixOf (pathSegs root) (pathSegs p)

/-- Specification-side strict-subdirectory test. -/
def isStrictSubdir (root p : String) : Bool :=
  isWithin root p ∧ ¬ (p = root)

/-- Build an absolute path string from a list of components (`[]` gives `/`). -/
def mkAbs (segs : List (List Char)) : String := ⟨'/' :: joinSegs segs⟩

/-- A well-formed path component: nonempty, slash-free, and not a dot
component.  Used to describe normalized absolute paths segment-wise. -/
def ValidSeg (c : List Char) : Prop :=
  c ≠ [] ∧ '/' ∉ c ∧ c ≠ ['.'] ∧ c ≠ ['.', '.']

instance (c : List Char) : Decidable (ValidSeg c) := by
  unfold ValidSeg; infer_instance

/-! ## Directory entries and sorting comparators (main.go lines 42-145)

`os.File.Readdir` returns `os.FileInfo` values with `Lstat` semantics: for a
symlink entry they describe the symlink itself.  `followSymlink`
(main.go:127-145) additionally reads the link and stats its target; the
outcome of those filesystem calls is modelled by the `resolved` field, which
is `some t` exactly when the entry is a symlink and both `os.Readlink` and
`os.Stat` on the target succeed with target info `t`. -/

/-- The `os.FileInfo` attributes the program consults. -/
structure FileAttrs where
  name : String
  size : Int
  modTime : Int
  isDir : Bool
deriving DecidableEq, Repr, Inhabited

/-- One entry of a directory read, as observed by `generateIndexHtml`. -/
structure DirEntry where
  attrs : FileAttrs
  isSymlink : Bool
  resolved : Option FileAttrs
deriving DecidableEq, Repr, Inhabited

/-- Embeds `followSymlink` (main.go:127-145): if the entry is a symlink and
its target could be read and statted, return the target's info, otherwise the
entry's own info. -/
def followSymlink (dfi : DirEntry) : FileAttrs :=
  if dfi.isSymlink then
    match dfi.resolved with
    | some tdfi => tdfi
    | none => dfi.attrs
  else dfi.attrs

/-- Byte-wise lexicographic comparison of Go strings (the `<` operator on
`string`), on the character-list model. -/
def lexLess : List Char → List Char → Bool
  | [], [] => false
  | [], _ :: _ => true
  | _ :: _, [] => false
  | a :: as, b :: bs => if a < b then true else if b < a then false else lexLess as bs

/-- Embeds `type sortBy` (main.go:49-55). -/
inductive SortBy
  | sortByName
  | sortByDate
  | sortBySize
deriving DecidableEq, Repr, Inhabited

/-- Embeds `type sortDirection` (main.go:57-62). -/
inductive SortDirection
  | sortAscending
  | sortDescending
deriving DecidableEq, Repr, Inhabited

open SortBy SortDirection

/-- Embeds the three `Less` methods `ByName.Less` (main.go:70-83),
`ByDate.Less` (main.go:91-104) and `BySize.Less` (main.go:112-125): a
directory is less than a non-directory; otherwise compare by the chosen key
in the chosen direction (`ModTime().Before`/`After` are strict comparisons of
the modification time). The comparators read the `Readdir` (lstat) attributes
of the entries. -/
def lessBy (k : SortBy) (d : SortDirection) (x y : DirEntry) : Bool :=
  if x.attrs.isDir ∧ ¬ y.attrs.isDir then true
  else if ¬ x.attrs.isDir ∧ y.attrs.isDir then false
  else
    match k with
    | sortByName =>
      if d = sortAscending then lexLess x.attrs.name.data y.attrs.name.data
      else lexLess y.attrs.name.data x.attrs.name.data
    | sortByDate =>
      if d = sortAscending then x.attrs.modTime < y.attrs.modTime
      else y.attrs.modTime < x.attrs.modTime
    | sortBySize =>
      if d = sortAscending then x.attrs.size < y.attrs.size
      else y.attrs.size < x.attrs.size

/-! ## Sort-mode selection (main.go lines 183-225) -/

/-- The `sortString` computed at main.go:184-199: the first line of the
`.index-sort` marker file if that file could be opened and had one
(`marker`), overridden by the request's `sort` query value when non-empty. -/
def sortStringOf (marker : Option String) (querySort : String) : String :=
  let s := match marker with
    | some m => m
    | none => ""
  if querySort ≠ "" then querySort else s

/-- Embeds the `switch sortString` at main.go:206-225 (the recognized mode
strings; anything else falls back to the name-ascending default). -/
def parseSortMode (s : String) : SortBy × SortDirection :=
  if s = "size-desc" then (sortBySize, sortDescending)
  else if s = "size-asc" then (sortBySize, sortAscending)
  else if s = "date-desc" then (sortByDate, sortDescending)
  else if s = "date-asc" then (sortByDate, sortAscending)
  else if s = "name-desc" then (sortByName, sortDescending)
  else if s = "name-asc" then (sortByName, sortAscending)
  else (sortByName, sortAscending)

/-- The sort mode a request ends up using (marker file plus query override). -/
def modeUsed (marker : Option String) (querySort : String) : SortBy × SortDirection :=
  parseSortMode (sortStringOf marker querySort)

/-! ## Go `sort.Sort` model

`sort.Sort` (called at main.go:243-252) is embedded from the Go standard
library's `sort/sort.go` of the repository's era (Go 1.x up to 1.18): an
intro-sort built from insertion sort (for ranges of at most 7 elements),
median-of-three quicksort with a three-way partition that parks
pivot-equal elements at the range's edges, and heapsort as the deep-recursion
fallback (`maxDepth = 2 * bitlength(n)`).  Its documentation states that the
sort is not guaranteed to be stable.

The element sequence is a `List`, indexed like the Go slice; index
arithmetic matches the Go source, and `lswap` is `data.Swap`.  Loops are
rendered as recursion; where the Go loop's progress measure is not a
syntactic argument, explicit fuel larger than the loop's iteration count is
supplied by the caller so the recursion terminates structurally without
changing the computed result. -/

/-- Go slice read `data[i]` (all reads are in bounds in the algorithm). -/
def lget [Inhabited α] (l : List α) (i : Nat) : α := l.getD i default

/-- Go `data.Swap(i, j)` (all swaps are in bounds in the algorithm). -/
def lswap [Inhabited α] (l : List α) (i j : Nat) : List α :=
  if h : i < l.length ∧ j < l.length then
    (l.set i (l.get ⟨j, h.2⟩)).set j (l.get ⟨i, h.1⟩)
  else l

/-- The inner loop of `insertionSort`: shift `data[j]` left while it is less
than its predecessor and `j > a` (structural recursion on `j`; when `j = 0`
the loop condition is false, as in the Go source). -/
def insInner [Inhabited α] (less : α → α → Bool) (a : Nat) : Nat → List α → List α
  | 0, l => l
  | j + 1, l =>
    if a < j + 1 ∧ less (lget l (j + 1)) (lget l j) then
      insInner less a j (lswap l (j + 1) j)
    else l

/-- The outer loop of Go's `insertionSort(data, a, b)`, iterating `i` from
`a+1` to `b`; the first argument counts the remaining iterations `b - i`. -/
def insOuter [Inhabited α] (less : α → α → Bool) (a : Nat) : Nat → Nat → List α → List α
  | 0, _, l => l
  | k + 1, i, l => insOuter less a k (i + 1) (insInner less a i l)

/-- Go's `insertionSort(data, a, b)`. -/
def insertionSortGo [Inhabited α] (less : α → α → Bool) (a b : Nat) (l : List α) : List α :=
  insOuter less a (b - (a + 1)) (a + 1) l

/-- The loop of Go's `siftDown(data, lo, hi, first)`, with `root` the loop
variable.  `fuel` bounds the iteration count; since `root` strictly increases
and stays below `hi`, the fuel `hi` supplied by the callers always suffices,
so the model computes exactly the Go loop. -/
def siftLoop [Inhabited α] (less : α → α → Bool) (first hi : Nat) :
    Nat → Nat → List α → List α
  | 0, _, l => l
  | fuel + 1, root, l =>
    if 2 * root + 1 < hi then
      let child := 2 * root + 1
      let child := if child + 1 < hi ∧ less (lget l (first + child)) (lget l (first + child + 1))
        then child + 1 else child
      if ¬ less (lget l (first + root)) (lget l (first + child)) then l
      else siftLoop less first hi fuel child (lswap l (first + root) (first + child))
    else l

/-- The heap-construction loop of Go's `heapSort`: `for i := (hi-1)/2; i >= 0;
i--` rendered with `i+1` as the argument (so the argument `k` processes root
`k-1` next). -/
def heapBuild [Inhabited α] (less : α → α → Bool) (first hi : Nat) :
    Nat → List α → List α
  | 0, l => l
  | k + 1, l => heapBuild less first hi k (siftLoop less first hi hi k l)

/-- The pop loop of Go's `heapSort`: `for i := hi - 1; i >= 0; i--`
(swap the maximum to the end, then sift the new root down). -/
def heapPop [Inhabited α] (less : α → α → Bool) (first : Nat) :
    Nat → List α → List α
  | 0, l => l
  | i + 1, l => heapPop less first i (siftLoop less first i i 0 (lswap l first (first + i)))

/-- Go's `heapSort(data, a, b)`. -/
def heapSortGo [Inhabited α] (less : α → α → Bool) (a b : Nat) (l : List α) : List α :=
  let first := a
  let hi := b - a
  heapPop less first hi (heapBuild less first hi ((hi - 1) / 2 + 1) l)

/-- The conditional-swap step `if data.Less(i, j) { data.Swap(i, j) }` used
by `medianOfThree`. -/
def condSwap [Inhabited α] (less : α → α → Bool) (i j : Nat) (l : List α) : List α :=
  if less (lget l i) (lget l j) then lswap l i j else l

/-- Go's `medianOfThree(data, a, b, c)`: after its three conditional swaps the
median of the three elements sits at index `a`. -/
def medianOfThree [Inhabited α] (less : α → α → Bool) (a b c : Nat) (l : List α) : List α :=
  let m0 := b
  let m1 := a
  let m2 := c
  condSwap less m1 m0 (condSwap less m2 m1 (condSwap less m1 m0 l))

/-- Go's `swapRange(data, a, b, n)`. -/
def swapRange [Inhabited α] (x y : Nat) : Nat → List α → List α
  | 0, l => l
  | n + 1, l => swapRange (x + 1) (y + 1) n (lswap l x y)

/-- First scanning loop of `doPivot`: advance `b` over elements less than the
pivot, swapping pivot-equal elements down to `a`; returns `(a, b, data)`.
`fuel` bounds the iterations (`b` strictly increases while below `c`, so the
fuel `c` supplied by `dpMain` always suffices and the model computes exactly
the Go loop). -/
def dpLoopB [Inhabited α] (less : α → α → Bool) (pivot c : Nat) :
    Nat → Nat → Nat → List α → Nat × Nat × List α
  | 0, a, b, l => (a, b, l)
  | fuel + 1, a, b, l =>
    if b < c then
      if less (lget l b) (lget l pivot) then dpLoopB less pivot c fuel a (b + 1) l
      else if ¬ less (lget l pivot) (lget l b) then
        dpLoopB less pivot c fuel (a + 1) (b + 1) (lswap l a b)
      else (a, b, l)
    else (a, b, l)

/-- Second scanning loop of `doPivot`: retreat `c` over elements greater than
the pivot, swapping pivot-equal elements up to `d`; returns `(c, d, data)`.
`fuel` bounds the iterations (`c` strictly decreases while above `b`, so the
fuel `c` supplied by `dpMain` always suffices and the model computes exactly
the Go loop). -/
def dpLoopC [Inhabited α] (less : α → α → Bool) (pivot b : Nat) :
    Nat → Nat → Nat → List α → Nat × Nat × List α
  | 0, c, d, l => (c, d, l)
  | fuel + 1, c, d, l =>
    if b < c then
      if less (lget l pivot) (lget l (c - 1)) then dpLoopC less pivot b fuel (c - 1) d l
      else if ¬ less (lget l (c - 1)) (lget l pivot) then
        dpLoopC less pivot b fuel (c - 1) (d - 1) (lswap l (c - 1) (d - 1))
      else (c, d, l)
    else (c, d, l)

/-- The outer partition loop of `doPivot` (fuelled; each iteration strictly
shrinks `c - b`, so fuel `hi - lo` given by `doPivotGo` always suffices). -/
def dpMain [Inhabited α] (less : α → α → Bool) (pivot : Nat) :
    Nat → Nat × Nat × Nat × Nat × List α → Nat × Nat × Nat × Nat × List α
  | 0, st => st
  | fuel + 1, (a, b, c, d, l) =>
    let (a, b, l) := dpLoopB less pivot c c a b l
    let (c, d, l) := dpLoopC less pivot b c c d l
    if b ≥ c then (a, b, c, d, l)
    else dpMain less pivot fuel (a, b + 1, c - 1, d, lswap l b (c - 1))

/-- Go's `doPivot(data, lo, hi)`, returning `(midlo, midhi, data)`. -/
def doPivotGo [Inhabited α] (less : α → α → Bool) (lo hi : Nat) (l : List α) :
    Nat × Nat × List α :=
  let m := lo + (hi - lo) / 2
  let l := if hi - lo > 40 then
      let s := (hi - lo) / 8
      let l := medianOfThree less lo (lo + s) (lo + 2 * s) l
      let l := medianOfThree less m (m - s) (m + s) l
      medianOfThree less (hi - 1) (hi - 1 - s) (hi - 1 - 2 * s) l
    else l
  let l := medianOfThree less lo m (hi - 1) l
  let pivot := lo
  let (a, b, c, d, l) := dpMain less pivot (hi - lo) (lo + 1, lo + 1, hi, hi, l)
  let n := min (b - a) (a - lo)
  let l := swapRange lo (b - n) n l
  let n2 := min (hi - d) (d - c)
  let l := swapRange c (hi - n2) n2 l
  (lo + b - a, hi - (d - c), l)

/-- Go's `quickSort(data, a, b, maxDepth)` (fuelled; every recursive call,
including the one standing for the next iteration of the Go loop, is on a
strictly shorter range, so fuel `n + 1` given by `sortGo` always suffices). -/
def quickSortGo [Inhabited α] (less : α → α → Bool) :
    Nat → Nat → Nat → Nat → List α → List α
  | 0, _, _, _, l => l
  | fuel + 1, a, b, maxDepth, l =>
    if b - a > 7 then
      if maxDepth = 0 then heapSortGo less a b l
      else
        let (mlo, mhi, l) := doPivotGo less a b l
        if mlo - a < b - mhi then
          let l := quickSortGo less fuel a mlo (maxDepth - 1) l
          quickSortGo less fuel mhi b (maxDepth - 1) l
        else
          let l := quickSortGo less fuel mhi b (maxDepth - 1) l
          quickSortGo less fuel a mlo (maxDepth - 1) l
    else if b - a > 1 then insertionSortGo less a b l
    else l

/-- The bit-length loop of Go's `sort.Sort`: `for i := n; i > 0; i >>= 1 {
maxDepth++ }` (the first argument counts the remaining halvings; `n` halves
to `0` within `n` steps, so the fuel `n` supplied by `bitLen` suffices). -/
def bitLenAux : Nat → Nat → Nat
  | 0, _ => 0
  | fuel + 1, n => if n = 0 then 0 else bitLenAux fuel (n / 2) + 1

/-- The `maxDepth` bit length of Go's `sort.Sort`. -/
def bitLen (n : Nat) : Nat := bitLenAux (n + 1) n

/-- Go's `sort.Sort` on a list with a `Less` function. -/
def sortGo [Inhabited α] (less : α → α → Bool) (l : List α) : List α :=
  let n := l.length
  quickSortGo less (n + 1) 0 n (2 * bitLen n) l

/-- The sorting step of `generateIndexHtml` (main.go:242-252): `sort.Sort`
with the comparator selected by the sort mode. -/
def goSortEntries (k : SortBy) (d : SortDirection) (fis : List DirEntry) : List DirEntry :=
  sortGo (lessBy k d) fis

/-! ## HTML rendering helpers (main.go lines 306-347)

`html.EscapeString` replaces the five special characters by entities;
`strings.Replace(s, " ", "&nbsp;", -1)` replaces every space.  Both act
character by character, so they are modelled as flat-maps.  The numeric text
of the size column comes from `fmt.Sprintf` with format `%.02f` applied to
`float64(size)` divided by a power of 1024: for `size < 2^53` the conversion
to `float64` and the division by a power of two are exact in IEEE-754 binary64
arithmetic, and Go's fixed-precision formatting (`strconv`, `decimal.Round`)
rounds the exact value to two decimal digits, ties to even; on that domain the
formatting is therefore modelled by exact integer arithmetic. -/

/-- The per-character substitution of Go's `html.EscapeString`. -/
def escChar (c : Char) : List Char :=
  if c = '&' then "&amp;".data
  else if c = Char.ofNat 39 then "&#39;".data
  else if c = '<' then "&lt;".data
  else if c = '>' then "&gt;".data
  else if c = Char.ofNat 34 then "&#34;".data
  else [c]

/-- Model of Go's `html.EscapeString`. -/
def escapeHtml (s : String) : String := ⟨s.data.flatMap escChar⟩

/-- The per-character substitution of `strings.Replace(s, " ", "&nbsp;", -1)`
(main.go:343). -/
def nbspChar (c : Char) : List Char :=
  if c = ' ' then "&nbsp;".data else [c]

/-- Model of `strings.Replace(s, " ", "&nbsp;", -1)`. -/
def nbspAll (s : String) : String := ⟨s.data.flatMap nbspChar⟩

/-- Characters the escaping pipeline leaves untouched. -/
def PlainChar (c : Char) : Prop := escChar c = [c] ∧ nbspChar c = [c]

instance (c : Char) : Decidable (PlainChar c) := by
  unfold PlainChar; infer_instance

/-- Decimal digit characters. -/
def digitChar10 (d : Nat) : Char :=
  match d with
  | 0 => '0' | 1 => '1' | 2 => '2' | 3 => '3' | 4 => '4'
  | 5 => '5' | 6 => '6' | 7 => '7' | 8 => '8' | 9 => '9'
  | _ => '0'

/-- Decimal digits of a natural number (most significant first; the first
argument counts the remaining divisions by ten and the fuel `n + 1` supplied
by `natDecimal` always suffices). -/
def natDecimalAux : Nat → Nat → List Char → List Char
  | 0, _, acc => acc
  | fuel + 1, n, acc =>
    if n < 10 then digitChar10 n :: acc
    else natDecimalAux fuel (n / 10) (digitChar10 (n % 10) :: acc)

/-- Decimal rendering of a natural number. -/
def natDecimal (n : Nat) : String := ⟨natDecimalAux (n + 1) n []⟩

/-- Round `n / 2^k`, scaled by 100, to the nearest integer, ties to even:
the value printed by `%.02f` for the exact binary value `n / 2^k` is this
number with a decimal point before its last two digits. -/
def round2HalfEven (n k : Nat) : Nat :=
  let N := n * 100
  let D := 2 ^ k
  let q := N / D
  let r := N % D
  if 2 * r < D then q
  else if D < 2 * r then q + 1
  else if q % 2 = 0 then q else q + 1

/-- The text `fmt.Sprintf("%.02f", ...)` produces for the exact value
`n / 2^k` (two fractional digits, zero-padded). -/
def fmt2f (n k : Nat) : String :=
  let r := round2HalfEven n k
  natDecimal (r / 100) ++ "." ++
    (if r % 100 < 10 then "0" ++ natDecimal (r % 100) else natDecimal (r % 100))

/-- The size text computed at main.go:318-332 for a (non-directory) entry of
the given size: `%.02f` of the size divided by 1024, 1024², or 1024³, with
the unit chosen by the `1024*1024` and `1024*1024*1024` thresholds.
Directory entries get `-`.  File sizes are nonnegative, so the numeric text
is modelled on `size.toNat`. -/
def goSizeText (dfi : FileAttrs) : String :=
  if dfi.isDir then "-"
  else
    let size := dfi.size
    if size < 1024 * 1024 then fmt2f size.toNat 10 ++ " KiB"
    else if size < 1024 * 1024 * 1024 then fmt2f size.toNat 20 ++ " MiB"
    else fmt2f size.toNat 30 ++ " GiB"

/-- The Size cell as inserted into the HTML table (main.go:343):
`html.EscapeString` then the space-to-`&nbsp;` replacement. -/
def sizeCellOf (dfi : FileAttrs) : String := nbspAll (escapeHtml (goSizeText dfi))

/-- One rendered row of the listing table (the claim-relevant cells: the
escaped link target, the escaped display name, and the Size cell). -/
structure Row where
  href : String
  displayName : String
  sizeCell : String
deriving DecidableEq, Repr, Inhabited

/-- The hidden-entry test at main.go:308: the entry name begins with `'.'`
(directory entry names are nonempty). -/
def isHiddenName (name : String) : Bool :=
  match name.data with
  | c :: _ => c = '.'
  | [] => false

/-- The body of the entry loop at main.go:306-346 for one non-hidden entry:
resolve symlinks for display attributes, translate the entry's local path for
the link, append `/` to name and link of a directory and give it Size `-`,
otherwise format the size, then HTML-escape everything inserted. -/
def renderRow (proxyRoot jailRoot localPath : String) (dfi : DirEntry) : Row :=
  let name := dfi.attrs.name
  let dfiPath := goJoin localPath name
  let tfi := followSymlink dfi
  let href := translateForProxy proxyRoot jailRoot dfiPath
  let nameHref :=
    if tfi.isDir then (name ++ "/", href ++ "/")
    else (name, href)
  { href := escapeHtml nameHref.2
    displayName := escapeHtml nameHref.1
    sizeCell := sizeCellOf tfi }

/-- The rendered entry rows of `generateIndexHtml` (main.go:168-347) for a
request with URL path `uPath`, query parameter `sort` equal to `querySort`
(empty when absent), marker-file first line `marker` (`none` when the file is
absent or empty), and directory read result `fis`: the entries are sorted by
the selected mode and each non-hidden entry produces one row, in order. -/
def generateIndexRows (proxyRoot jailRoot uPath : String) (marker : Option String)
    (querySort : String) (fis : List DirEntry) : List Row :=
  let localPath := localPathOf proxyRoot jailRoot uPath
  let mode := modeUsed marker querySort
  let sorted := goSortEntries mode.1 mode.2 fis
  sorted.filterMap (fun dfi =>
    if isHiddenName dfi.attrs.name then none
    else some (renderRow proxyRoot jailRoot localPath dfi))

/-- The `baseDir` computed at main.go:175-181: `path.Dir` of the local path
(with a trailing slash stripped first), with `""` replaced by `"/"`. -/
def baseDirOf (localPath : String) : String :=
  let bd :=
    if localPath.data.getLast? = some '/' then goDir ⟨localPath.data.dropLast⟩
    else goDir localPath
  if bd = "" then "/" else bd

/-- The condition of main.go:296: the parent-directory `../` row is rendered
iff `baseDir` starts (byte-wise) with the jail root. -/
def parentRowShown (jailRoot localPath : String) : Bool :=
  startsWith (baseDirOf localPath) jailRoot

/-! ## The dispatcher's symlink branch (main.go lines 362-389) -/

/-- The claim-relevant outcomes of `processProxiedRequest` on a symlink. -/
inductive ProxiedOutcome
  | clientError (msg : String)
  | redirect (location : String)
deriving DecidableEq, Repr

/-- Embeds the symlink branch of `processProxiedRequest` (main.go:366-389)
for a request whose local path is a symlink whose target `linkDest` was read
successfully: reject absolute targets that do not start (byte-wise) with the
jail root; otherwise join the target onto the symlink's directory, translate
it to a proxy path, and redirect (302). -/
def symlinkDecision (proxyRoot jailRoot uPath linkDest : String) : ProxiedOutcome :=
  let localPath := localPathOf proxyRoot jailRoot uPath
  let localDir := goDir localPath
  if goIsAbs linkDest ∧ ¬ startsWith linkDest jailRoot then
    ProxiedOutcome.clientError "Symlink points outside of jail"
  else
    ProxiedOutcome.redirect (translateForProxy proxyRoot jailRoot (goJoin localDir linkDest))

/-! ## Specification-side comparison definitions -/

/-- Specification-side: `x` precedes-or-ties `y` under the chosen key and
direction (the non-strict order named by the claims' "ordered by the chosen
key and direction"). -/
def keyLe (k : SortBy) (d : SortDirection) (x y : FileAttrs) : Prop :=
  match k, d with
  | sortByName, sortAscending => ¬ lexLess y.name.data x.name.data = true
  | sortByName, sortDescending => ¬ lexLess x.name.data y.name.data = true
  | sortByDate, sortAscending => x.modTime ≤ y.modTime
  | sortByDate, sortDescending => y.modTime ≤ x.modTime
  | sortBySize, sortAscending => x.size ≤ y.size
  | sortBySize, sortDescending => y.size ≤ x.size

/-- Specification-side description of the Size cell for a file of `n` bytes:
the size scaled by 1024-multiple thresholds (KiB below 1 MiB, MiB below
1 GiB, GiB otherwise), two decimal places, and a non-breaking space before
the unit. -/
def specSizeCell (n : Nat) : String :=
  if n < 1048576 then fmt2f n 10 ++ "&nbsp;KiB"
  else if n < 1073741824 then fmt2f n 20 ++ "&nbsp;MiB"
  else fmt2f n 30 ++ "&nbsp;GiB"

/-! ## Concrete entries used by witnesses and counterexamples -/

/-- A plain regular-file entry. -/
def exFile (nm : String) (sz : Int) : DirEntry :=
  { attrs := { name := nm, size := sz, modTime := 0, isDir := false }
    isSymlink := false, resolved := none }

/-- A plain subdirectory entry. -/
def exDir (nm : String) : DirEntry :=
  { attrs := { name := nm, size := 4096, modTime := 0, isDir := true }
    isSymlink := false, resolved := none }

/-- A symlink entry whose target resolved to a directory named `zdir`. -/
def exDirLink : DirEntry :=
  { attrs := { name := "zlink", size := 9, modTime := 0, isDir := false }
    isSymlink := true
    resolved := some { name := "zdir", size := 4096, modTime := 5, isDir := true } }

/-- An eight-entry directory read with ties under the size key: the files
`c`, `e`, `g` all have size 1 (read in that order) and `d`, `f`, `h` all
have size 3. -/
def exTies : List DirEntry :=
  [exFile "a" 2, exFile "b" 2, exFile "c" 1, exFile "d" 3,
   exFile "e" 1, exFile "f" 3, exFile "g" 1, exFile "h" 3]

/-! ## Permutation lemmas

Every operation of the embedded `sort.Sort` only swaps elements, so each
returns a permutation of its input.  These lemmas support the claims about
the contents of a sorted listing. -/

/-- Replacing an element and re-inserting its old value at the front is a
permutation of inserting the new value at the front. -/
theorem cons_set_perm [Inhabited α] : ∀ (xs : List α) (m : Nat) (a : α), m < xs.length →
    List.Perm (lget xs m :: xs.set m a) (a :: xs)
  | [], m, a, h => absurd h (by simp)
  | x :: xs, 0, a, _ => by
    simpa [lget] using List.Perm.swap a x xs
  | x :: xs, m + 1, a, h => by
    have ih := cons_set_perm xs m a (Nat.lt_of_succ_lt_succ h)
    simp only [lget, List.getD_cons_succ, List.set_cons_succ] at ih ⊢
    exact ((List.Perm.swap x (xs.getD m default) (xs.set m a)).trans (ih.cons x)).trans
      (List.Perm.swap a x xs)

/-- Exchanging two positions of a list is a permutation. -/
theorem set_set_perm [Inhabited α] : ∀ (l : List α) (i j : Nat), i < l.length → j < l.length →
    List.Perm ((l.set i (lget l j)).set j (lget l i)) l
  | [], _, _, hi, _ => absurd hi (by simp)
  | x :: xs, 0, 0, _, _ => by simp [lget]
  | x :: xs, 0, j + 1, _, hj => by
    simpa [lget, List.getD_cons_succ] using
      cons_set_perm xs j x (Nat.lt_of_succ_lt_succ hj)
  | x :: xs, i + 1, 0, hi, _ => by
    simpa [lget, List.getD_cons_succ] using
      cons_set_perm xs i x (Nat.lt_of_succ_lt_succ hi)
  | x :: xs, i + 1, j + 1, hi, hj => by
    simpa [lget, List.getD_cons_succ, List.set_cons_succ] using
      (set_set_perm xs i j (Nat.lt_of_succ_lt_succ hi) (Nat.lt_of_succ_lt_succ hj)).cons x

/-- `data.Swap` is a permutation. -/
theorem lswap_perm [Inhabited α] (l : List α) (i j : Nat) : List.Perm (lswap l i j) l := by
  unfold lswap
  split
  case isTrue h =>
    have hg : l.get ⟨j, h.2⟩ = lget l j := by
      rw [List.get_eq_getElem, lget, List.getD_eq_getElem l default h.2]
    have hg2 : l.get ⟨i, h.1⟩ = lget l i := by
      rw [List.get_eq_getElem, lget, List.getD_eq_getElem l default h.1]
    rw [hg, hg2]
    exact set_set_perm l i j h.1 h.2
  case isFalse => exact List.Perm.refl l

/-- `condSwap` is a permutation. -/
theorem condSwap_perm [Inhabited α] (less : α → α → Bool) (i j : Nat) (l : List α) :
    List.Perm (condSwap less i j l) l := by
  unfold condSwap
  split
  · exact lswap_perm l i j
  · exact List.Perm.refl l

/-- The insertion-sort inner loop is a permutation. -/
theorem insInner_perm [Inhabited α] (less : α → α → Bool) (a : Nat) :
    ∀ (j : Nat) (l : List α), List.Perm (insInner less a j l) l
  | 0, l => List.Perm.refl l
  | j + 1, l => by
    unfold insInner
    split
    · exact (insInner_perm less a j _).trans (lswap_perm l (j + 1) j)
    · exact List.Perm.refl l

/-- The insertion-sort outer loop is a permutation. -/
theorem insOuter_perm [Inhabited α] (less : α → α → Bool) (a : Nat) :
    ∀ (k i : Nat) (l : List α), List.Perm (insOuter less a k i l) l
  | 0, _, l => List.Perm.refl l
  | k + 1, i, l =>
    (insOuter_perm less a k (i + 1) _).trans (insInner_perm less a i l)

/-- `insertionSort` is a permutation. -/
theorem insertionSortGo_perm [Inhabited α] (less : α → α → Bool) (a b : Nat) (l : List α) :
    List.Perm (insertionSortGo less a b l) l :=
  insOuter_perm less a (b - (a + 1)) (a + 1) l

/-- The `siftDown` loop is a permutation. -/
theorem siftLoop_perm [Inhabited α] (less : α → α → Bool) (first hi : Nat) :
    ∀ (fuel root : Nat) (l : List α), List.Perm (siftLoop less first hi fuel root l) l
  | 0, _, l => List.Perm.refl l
  | fuel + 1, root, l => by
    unfold siftLoop
    split
    · dsimp only
      split <;> split
      all_goals first
        | exact List.Perm.refl l
        | exact (siftLoop_perm less first hi fuel _ _).trans (lswap_perm l _ _)
    · exact List.Perm.refl l

/-- The heap-construction loop is a permutation. -/
theorem heapBuild_perm [Inhabited α] (less : α → α → Bool) (first hi : Nat) :
    ∀ (k : Nat) (l : List α), List.Perm (heapBuild less first hi k l) l
  | 0, l => List.Perm.refl l
  | k + 1, l =>
    (heapBuild_perm less first hi k _).trans (siftLoop_perm less first hi hi k l)

/-- The heap pop loop is a permutation. -/
theorem heapPop_perm [Inhabited α] (less : α → α → Bool) (first : Nat) :
    ∀ (k : Nat) (l : List α), List.Perm (heapPop less first k l) l
  | 0, l => List.Perm.refl l
  | k + 1, l =>
    (heapPop_perm less first k _).trans
      ((siftLoop_perm less first k k 0 _).trans (lswap_perm l first (first + k)))

/-- `heapSort` is a permutation. -/
theorem heapSortGo_perm [Inhabited α] (less : α → α → Bool) (a b : Nat) (l : List α) :
    List.Perm (heapSortGo less a b l) l :=
  (heapPop_perm less a (b - a) _).trans (heapBuild_perm less a (b - a) ((b - a - 1) / 2 + 1) l)

/-- `medianOfThree` is a permutation. -/
theorem medianOfThree_perm [Inhabited α] (less : α → α → Bool) (a b c : Nat) (l : List α) :
    List.Perm (medianOfThree less a b c l) l :=
  (condSwap_perm less a b _).trans ((condSwap_perm less c a _).trans (condSwap_perm less a b l))

/-- `swapRange` is a permutation. -/
theorem swapRange_perm [Inhabited α] :
    ∀ (x y n : Nat) (l : List α), List.Perm (swapRange x y n l) l
  | _, _, 0, l => List.Perm.refl l
  | x, y, n + 1, l => (swapRange_perm (x + 1) (y + 1) n _).trans (lswap_perm l x y)

/-- The first `doPivot` scanning loop permutes the data component. -/
theorem dpLoopB_perm [Inhabited α] (less : α → α → Bool) (pivot c : Nat) :
    ∀ (fuel a b : Nat) (l : List α), List.Perm (dpLoopB less pivot c fuel a b l).2.2 l
  | 0, _, _, l => List.Perm.refl l
  | fuel + 1, a, b, l => by
    unfold dpLoopB
    split
    · split
      · exact dpLoopB_perm less pivot c fuel a (b + 1) l
      · split
        · exact (dpLoopB_perm less pivot c fuel (a + 1) (b + 1) _).trans (lswap_perm l a b)
        · exact List.Perm.refl l
    · exact List.Perm.refl l

/-- The second `doPivot` scanning loop permutes the data component. -/
theorem dpLoopC_perm [Inhabited α] (less : α → α → Bool) (pivot b : Nat) :
    ∀ (fuel c d : Nat) (l : List α), List.Perm (dpLoopC less pivot b fuel c d l).2.2 l
  | 0, _, _, l => List.Perm.refl l
  | fuel + 1, c, d, l => by
    unfold dpLoopC
    split
    · split
      · exact dpLoopC_perm less pivot b fuel (c - 1) d l
      · split
        · exact (dpLoopC_perm less pivot b fuel (c - 1) (d - 1) _).trans
            (lswap_perm l (c - 1) (d - 1))
        · exact List.Perm.refl l
    · exact List.Perm.refl l

/-- The main `doPivot` partition loop permutes the data component. -/
theorem dpMain_perm [Inhabited α] (less : α → α → Bool) (pivot : Nat) :
    ∀ (fuel : Nat) (st : Nat × Nat × Nat × Nat × List α),
      List.Perm (dpMain less pivot fuel st).2.2.2.2 st.2.2.2.2
  | 0, _ => List.Perm.refl _
  | fuel + 1, (a, b, c, d, l) => by
    unfold dpMain
    rcases hB : dpLoopB less pivot c c a b l with ⟨a2, b2, l2⟩
    have pB : List.Perm l2 l := by
      have := dpLoopB_perm less pivot c c a b l
      rwa [hB] at this
    rcases hC : dpLoopC less pivot b2 c c d l2 with ⟨c2, d2, l3⟩
    have pC : List.Perm l3 l2 := by
      have := dpLoopC_perm less pivot b2 c c d l2
      rwa [hC] at this
    simp only [hB, hC]
    split
    · exact pC.trans pB
    · exact ((dpMain_perm less pivot fuel _).trans (lswap_perm l3 b2 (c2 - 1))).trans
        (pC.trans pB)

/-- `doPivot` permutes the data component. -/
theorem doPivotGo_perm [Inhabited α] (less : α → α → Bool) (lo hi : Nat) (l : List α) :
    List.Perm (doPivotGo less lo hi l).2.2 l := by
  unfold doPivotGo
  rcases hM : dpMain less lo (hi - lo)
      (lo + 1, lo + 1, hi, hi,
        medianOfThree less lo (lo + (hi - lo) / 2) (hi - 1)
          (if hi - lo > 40 then
              let s := (hi - lo) / 8
              medianOfThree less (hi - 1) (hi - 1 - s) (hi - 1 - 2 * s)
                (medianOfThree less (lo + (hi - lo) / 2) (lo + (hi - lo) / 2 - s)
                  (lo + (hi - lo) / 2 + s)
                  (medianOfThree less lo (lo + s) (lo + 2 * s) l))
            else l)) with ⟨a, b, c, d, l4⟩
  have pM : List.Perm l4 l := by
    have h0 : List.Perm
        (if hi - lo > 40 then
            let s := (hi - lo) / 8
            medianOfThree less (hi - 1) (hi - 1 - s) (hi - 1 - 2 * s)
              (medianOfThree less (lo + (hi - lo) / 2) (lo + (hi - lo) / 2 - s)
                (lo + (hi - lo) / 2 + s)
                (medianOfThree less lo (lo + s) (lo + 2 * s) l))
          else l) l := by
      split
      · exact (medianOfThree_perm less _ _ _ _).trans
          ((medianOfThree_perm less _ _ _ _).trans (medianOfThree_perm less _ _ _ l))
      · exact List.Perm.refl l
    have := dpMain_perm less lo (hi - lo)
      (lo + 1, lo + 1, hi, hi,
        medianOfThree less lo (lo + (hi - lo) / 2) (hi - 1)
          (if hi - lo > 40 then
              let s := (hi - lo) / 8
              medianOfThree less (hi - 1) (hi - 1 - s) (hi - 1 - 2 * s)
                (medianOfThree less (lo + (hi - lo) / 2) (lo + (hi - lo) / 2 - s)
                  (lo + (hi - lo) / 2 + s)
                  (medianOfThree less lo (lo + s) (lo + 2 * s) l))
            else l))
    rw [hM] at this
    exact this.trans ((medianOfThree_perm less _ _ _ _).trans h0)
  simp only [hM]
  exact (swapRange_perm _ _ _ _).trans ((swapRange_perm _ _ _ _).trans pM)

/-- `quickSort` is a permutation. -/
theorem quickSortGo_perm [Inhabited α] (less : α → α → Bool) :
    ∀ (fuel a b maxDepth : Nat) (l : List α),
      List.Perm (quickSortGo less fuel a b maxDepth l) l
  | 0, _, _, _, l => List.Perm.refl l
  | fuel + 1, a, b, maxDepth, l => by
    unfold quickSortGo
    split
    · split
      · exact heapSortGo_perm less a b l
      · rcases hP : doPivotGo less a b l with ⟨mlo, mhi, l2⟩
        have pP : List.Perm l2 l := by
          have := doPivotGo_perm less a b l
          rwa [hP] at this
        simp only [hP]
        split
        · exact ((quickSortGo_perm less fuel mhi b (maxDepth - 1) _).trans
            (quickSortGo_perm less fuel a mlo (maxDepth - 1) l2)).trans pP
        · exact ((quickSortGo_perm less fuel a mlo (maxDepth - 1) _).trans
            (quickSortGo_perm less fuel mhi b (maxDepth - 1) l2)).trans pP
    · split
      · exact insertionSortGo_perm less a b l
      · exact List.Perm.refl l

/-- `sort.Sort` is a permutation of its input. -/
theorem sortGo_perm [Inhabited α] (less : α → α → Bool) (l : List α) :
    List.Perm (sortGo less l) l :=
  quickSortGo_perm less (l.length + 1) 0 l.length (2 * bitLen l.length) l

/-! ## Path normalization lemmas

Segment-wise characterization of `goClean`, `goJoin`, `goDir` and the
prefix-stripping helpers on normalized absolute paths, used by the amended
round-trip and parent-row claims. -/

/-- `splitSlash` never returns the empty list. -/
theorem splitSlash_ne_nil : ∀ (l : List Char), splitSlash l ≠ []
  | [] => by simp [splitSlash]
  | c :: rest => by
    unfold splitSlash
    split
    · simp
    · rcases h : splitSlash rest with _ | ⟨x, xs⟩
      · simp
      · simp

/-- Splitting a slash-free segment followed by a slash peels the segment. -/
theorem splitSlash_seg_append : ∀ (a : List Char), '/' ∉ a →
    ∀ (rest : List Char), splitSlash (a ++ '/' :: rest) = a :: splitSlash rest
  | [], _, rest => by simp [splitSlash]
  | c :: a, ha, rest => by
    have hc : ¬ (c = '/') := fun h => ha (h ▸ List.mem_cons_self c a)
    have ha2 : '/' ∉ a := fun h => ha (List.mem_cons_of_mem c h)
    simp only [List.cons_append]
    conv_lhs => rw [splitSlash]
    rw [if_neg hc, splitSlash_seg_append a ha2 rest]

/-- Splitting a slash-free string yields a single component. -/
theorem splitSlash_seg : ∀ (a : List Char), '/' ∉ a → splitSlash a = [a]
  | [], _ => rfl
  | c :: a, ha => by
    have hc : ¬ (c = '/') := fun h => ha (h ▸ List.mem_cons_self c a)
    have ha2 : '/' ∉ a := fun h => ha (List.mem_cons_of_mem c h)
    conv_lhs => rw [splitSlash]
    rw [if_neg hc, splitSlash_seg a ha2]

/-- `joinSegs` over an append inserts one separating slash. -/
theorem joinSegs_append : ∀ (ps rs : List (List Char)), ps ≠ [] → rs ≠ [] →
    joinSegs (ps ++ rs) = joinSegs ps ++ '/' :: joinSegs rs
  | [], _, hps, _ => absurd rfl hps
  | [p], rs, _, hrs => by
    rcases rs with _ | ⟨r, rs⟩
    · exact absurd rfl hrs
    · simp [joinSegs]
  | p :: q :: ps, rs, _, hrs => by
    have ih := joinSegs_append (q :: ps) rs (by simp) hrs
    show p ++ '/' :: joinSegs ((q :: ps) ++ rs)
        = (p ++ '/' :: joinSegs (q :: ps)) ++ '/' :: joinSegs rs
    rw [ih]
    simp

/-- Splitting `joinSegs` of slash-free segments followed by a slash. -/
theorem splitSlash_joinSegs_append : ∀ (ss : List (List Char)), ss ≠ [] →
    (∀ c ∈ ss, '/' ∉ c) → ∀ (rest : List Char),
    splitSlash (joinSegs ss ++ '/' :: rest) = ss ++ splitSlash rest
  | [], hss, _, _ => absurd rfl hss
  | [s], _, hs, rest => by
    simpa [joinSegs] using splitSlash_seg_append s (hs s (by simp)) rest
  | s :: t :: ss, _, hs, rest => by
    have ih := splitSlash_joinSegs_append (t :: ss) (by simp)
      (fun c hc => hs c (List.mem_cons_of_mem s hc)) rest
    simp only [joinSegs, List.cons_append, List.append_assoc]
    rw [← List.cons_append, ← List.append_assoc]
    rw [List.append_assoc, List.cons_append]
    rw [splitSlash_seg_append s (hs s (by simp)), ih]
    rfl

/-- Splitting `joinSegs` of slash-free segments recovers the segments. -/
theorem splitSlash_joinSegs : ∀ (ss : List (List Char)), ss ≠ [] →
    (∀ c ∈ ss, '/' ∉ c) → splitSlash (joinSegs ss) = ss
  | [], hss, _ => absurd rfl hss
  | [s], _, hs => by simpa [joinSegs] using splitSlash_seg s (hs s (by simp))
  | s :: t :: ss, _, hs => by
    have ih := splitSlash_joinSegs (t :: ss) (by simp)
      (fun c hc => hs c (List.mem_cons_of_mem s hc))
    simp only [joinSegs]
    rw [splitSlash_seg_append s (hs s (by simp)), ih]

/-- The clean fold over dot-free components keeps exactly the nonempty
components, reversed onto the accumulator. -/
theorem cleanFold (rooted : Bool) : ∀ (comps : List (List Char)) (acc : List (List Char)),
    (∀ c ∈ comps, c = [] ∨ ValidSeg c) →
    List.foldl (cleanStep rooted) acc comps
      = ((comps.filter (fun c => ¬ (c = []))).reverse ++ acc)
  | [], acc, _ => by simp
  | c :: comps, acc, h => by
    rcases h c (by simp) with hc | hc
    · subst hc
      rw [List.foldl_cons]
      have hstep : cleanStep rooted acc [] = acc := by simp [cleanStep]
      rw [hstep, cleanFold rooted comps acc (fun d hd => h d (List.mem_cons_of_mem [] hd))]
      simp
    · rw [List.foldl_cons]
      have hstep : cleanStep rooted acc c = c :: acc := by
        unfold cleanStep
        rw [if_neg (by simp [hc.1, hc.2.2.1]), if_neg (by simp [hc.2.2.2])]
      rw [hstep, cleanFold rooted comps (c :: acc) (fun d hd => h d (List.mem_cons_of_mem c hd))]
      simp [List.filter_cons, hc.1]

/-- `goClean` of a rooted path whose components are empty or well-formed
keeps exactly the nonempty components. -/
theorem goClean_rooted (t : List Char) (h : ∀ c ∈ splitSlash t, c = [] ∨ ValidSeg c) :
    goClean ⟨'/' :: t⟩ = mkAbs ((splitSlash t).filter (fun c => ¬ (c = []))) := by
  unfold goClean mkAbs
  congr 1
  have hsplit : splitSlash ('/' :: t) = [] :: splitSlash t := rfl
  unfold goCleanList
  have hstep : cleanStep true [] [] = [] := by simp [cleanStep]
  simp only [hsplit, decide_True, List.foldl_cons]
  rw [hstep, cleanFold true (splitSlash t) [] h]
  simp only [List.append_nil, List.reverse_reverse]
  split <;> simp_all [joinSegs]
  rename_i x heq
  rw [List.filter_eq_nil_iff.2 (fun a ha => by simp [heq a ha])]
  rfl

/-- A normalized absolute path built from components is not the empty
string. -/
theorem mkAbs_ne_empty (ss : List (List Char)) : ¬ (mkAbs ss = "") := by
  intro h
  have := congrArg String.data h
  simp [mkAbs] at this

/-- `startsWith` holds for byte-level extensions. -/
theorem startsWith_of_append (s t : String) (u : List Char) (h : s.data = t.data ++ u) :
    startsWith s t = true := by
  unfold startsWith
  rw [if_neg (by simp [h])]
  rw [h, List.take_left]
  simp

/-- Stripping a byte-level extension leaves the extension. -/
theorem removeIfStartsWith_append (s t : String) (u : List Char) (h : s.data = t.data ++ u) :
    removeIfStartsWith s t = ⟨u⟩ := by
  unfold removeIfStartsWith
  rw [if_neg (by simp [startsWith_of_append s t u h])]
  congr 1
  rw [h, List.drop_left]

/-- All components of well-formed segments are slash-free. -/
theorem segs_slashfree (ss : List (List Char)) (h : ∀ c ∈ ss, ValidSeg c) :
    ∀ c ∈ ss, '/' ∉ c := fun c hc => (h c hc).2.1

/-- Filtering nonemptiness over well-formed segments is the identity. -/
theorem filter_valid_segs (ss : List (List Char)) (h : ∀ c ∈ ss, ValidSeg c) :
    ss.filter (fun c => ¬ (c = [])) = ss :=
  List.filter_eq_self.2 (fun c hc => by simp [(h c hc).1])

/-- `path.Join` of an absolute base and the empty string normalizes to the
base. -/
theorem goJoin_mkAbs_empty (js : List (List Char)) (h : ∀ c ∈ js, ValidSeg c) :
    goJoin (mkAbs js) "" = mkAbs js := by
  rcases List.eq_nil_or_concat js with rfl | ⟨t, sg, rfl⟩
  · decide
  · rw [List.concat_eq_append t sg] at h ⊢
    unfold goJoin
    rw [if_neg (mkAbs_ne_empty _)]
    rw [show (⟨(mkAbs (t ++ [sg])).data ++ '/' :: ("" : String).data⟩ : String)
        = ⟨'/' :: (joinSegs (t ++ [sg]) ++ '/' :: [])⟩ by simp [mkAbs]]
    have hsp : splitSlash (joinSegs (t ++ [sg]) ++ '/' :: [])
        = (t ++ [sg]) ++ splitSlash [] :=
      splitSlash_joinSegs_append (t ++ [sg]) (by simp) (segs_slashfree _ h) []
    have hpre : ∀ c ∈ splitSlash (joinSegs (t ++ [sg]) ++ '/' :: []), c = [] ∨ ValidSeg c := by
      rw [hsp]
      intro c hc
      rcases List.mem_append.1 hc with hc | hc
      · exact Or.inr (h c hc)
      · exact Or.inl (by simpa [splitSlash] using hc)
    rw [goClean_rooted _ hpre]
    congr 1
    rw [hsp, show splitSlash ([] : List Char) = [[]] from rfl, List.filter_append,
      filter_valid_segs _ h]
    simp

/-- `path.Join` of an absolute base and a rooted suffix concatenates the
segments. -/
theorem goJoin_mkAbs_abs (js rs : List (List Char)) (hjs : ∀ c ∈ js, ValidSeg c)
    (hrs : ∀ c ∈ rs, ValidSeg c) (hne : rs ≠ []) :
    goJoin (mkAbs js) ⟨'/' :: joinSegs rs⟩ = mkAbs (js ++ rs) := by
  have hsplit2 : splitSlash ('/' :: joinSegs rs) = [] :: rs := by
    show (if ('/' : Char) = '/' then [] :: splitSlash (joinSegs rs) else _) = _
    rw [if_pos rfl, splitSlash_joinSegs rs hne (segs_slashfree rs hrs)]
  unfold goJoin
  rw [if_neg (mkAbs_ne_empty js)]
  rcases List.eq_nil_or_concat js with rfl | ⟨t, sg, rfl⟩
  · rw [show (⟨(mkAbs []).data ++ '/' :: (⟨'/' :: joinSegs rs⟩ : String).data⟩ : String)
        = ⟨'/' :: ('/' :: '/' :: joinSegs rs)⟩ by simp [mkAbs, joinSegs]]
    have hsp : splitSlash ('/' :: '/' :: joinSegs rs) = [] :: [] :: rs := by
      show (if ('/' : Char) = '/' then [] :: splitSlash ('/' :: joinSegs rs) else _) = _
      rw [if_pos rfl, hsplit2]
    have hpre : ∀ c ∈ splitSlash ('/' :: '/' :: joinSegs rs), c = [] ∨ ValidSeg c := by
      rw [hsp]
      intro c hc
      rcases List.mem_cons.1 hc with rfl | hc
      · exact Or.inl rfl
      rcases List.mem_cons.1 hc with rfl | hc
      · exact Or.inl rfl
      · exact Or.inr (hrs c hc)
    rw [goClean_rooted _ hpre]
    congr 1
    rw [hsp]
    simp only [List.filter_cons, List.nil_append]
    rw [filter_valid_segs rs hrs]
    simp
  · rw [List.concat_eq_append t sg] at hjs ⊢
    rw [show (⟨(mkAbs (t ++ [sg])).data ++ '/' :: (⟨'/' :: joinSegs rs⟩ : String).data⟩ : String)
        = ⟨'/' :: (joinSegs (t ++ [sg]) ++ '/' :: ('/' :: joinSegs rs))⟩ by simp [mkAbs]]
    have hsp : splitSlash (joinSegs (t ++ [sg]) ++ '/' :: ('/' :: joinSegs rs))
        = (t ++ [sg]) ++ ([] :: rs) := by
      rw [splitSlash_joinSegs_append (t ++ [sg]) (by simp) (segs_slashfree _ hjs), hsplit2]
    have hpre : ∀ c ∈ splitSlash (joinSegs (t ++ [sg]) ++ '/' :: ('/' :: joinSegs rs)),
        c = [] ∨ ValidSeg c := by
      rw [hsp]
      intro c hc
      rcases List.mem_append.1 hc with hc | hc
      · exact Or.inr (hjs c hc)
      · rcases List.mem_cons.1 hc with rfl | hc
        · exact Or.inl rfl
        · exact Or.inr (hrs c hc)
    rw [goClean_rooted _ hpre]
    congr 1
    rw [hsp, List.filter_append, filter_valid_segs _ hjs]
    simp only [List.filter_cons]
    rw [filter_valid_segs rs hrs]
    simp

/-- `path.Join` of an absolute base and a relative suffix concatenates the
segments. -/
theorem goJoin_mkAbs_rel (js rs : List (List Char)) (hjs : ∀ c ∈ js, ValidSeg c)
    (hrs : ∀ c ∈ rs, ValidSeg c) (hne : rs ≠ []) :
    goJoin (mkAbs js) ⟨joinSegs rs⟩ = mkAbs (js ++ rs) := by
  have hsplit2 : splitSlash (joinSegs rs) = rs :=
    splitSlash_joinSegs rs hne (segs_slashfree rs hrs)
  unfold goJoin
  rw [if_neg (mkAbs_ne_empty js)]
  rcases List.eq_nil_or_concat js with rfl | ⟨t, sg, rfl⟩
  · rw [show (⟨(mkAbs []).data ++ '/' :: (⟨joinSegs rs⟩ : String).data⟩ : String)
        = ⟨'/' :: ('/' :: joinSegs rs)⟩ by simp [mkAbs, joinSegs]]
    have hsp : splitSlash ('/' :: joinSegs rs) = [] :: rs := by
      show (if ('/' : Char) = '/' then [] :: splitSlash (joinSegs rs) else _) = _
      rw [if_pos rfl, hsplit2]
    have hpre : ∀ c ∈ splitSlash ('/' :: joinSegs rs), c = [] ∨ ValidSeg c := by
      rw [hsp]
      intro c hc
      rcases List.mem_cons.1 hc with rfl | hc
      · exact Or.inl rfl
      · exact Or.inr (hrs c hc)
    rw [goClean_rooted _ hpre]
    congr 1
    rw [hsp]
    simp only [List.filter_cons, List.nil_append]
    rw [filter_valid_segs rs hrs]
    simp
  · rw [List.concat_eq_append t sg] at hjs ⊢
    rw [show (⟨(mkAbs (t ++ [sg])).data ++ '/' :: (⟨joinSegs rs⟩ : String).data⟩ : String)
        = ⟨'/' :: (joinSegs (t ++ [sg]) ++ '/' :: joinSegs rs)⟩ by simp [mkAbs]]
    have hsp : splitSlash (joinSegs (t ++ [sg]) ++ '/' :: joinSegs rs)
        = (t ++ [sg]) ++ rs := by
      rw [splitSlash_joinSegs_append (t ++ [sg]) (by simp) (segs_slashfree _ hjs), hsplit2]
    have hpre : ∀ c ∈ splitSlash (joinSegs (t ++ [sg]) ++ '/' :: joinSegs rs),
        c = [] ∨ ValidSeg c := by
      rw [hsp]
      intro c hc
      rcases List.mem_append.1 hc with hc | hc
      · exact Or.inr (hjs c hc)
      · exact Or.inr (hrs c hc)
    rw [goClean_rooted _ hpre]
    congr 1
    rw [hsp, List.filter_append, filter_valid_segs _ hjs, filter_valid_segs rs hrs]

/-- Stripping a segment-boundary prefix from a normalized absolute path. -/
theorem strip_mkAbs (ps rs : List (List Char)) (hps : ∀ c ∈ ps, ValidSeg c)
    (hrs : ∀ c ∈ rs, ValidSeg c) :
    removeIfStartsWith (mkAbs (ps ++ rs)) (mkAbs ps)
      = if rs = [] then ""
        else if ps = [] then ⟨joinSegs rs⟩ else ⟨'/' :: joinSegs rs⟩ := by
  rcases Decidable.em (rs = []) with rfl | hrsne
  · rw [if_pos rfl, List.append_nil]
    exact removeIfStartsWith_append (mkAbs ps) (mkAbs ps) [] (by simp)
  · rw [if_neg hrsne]
    rcases Decidable.em (ps = []) with rfl | hpsne
    · rw [if_pos rfl]
      exact removeIfStartsWith_append (mkAbs rs) (mkAbs []) (joinSegs rs)
        (by simp [mkAbs, joinSegs])
    · rw [if_neg hpsne]
      refine removeIfStartsWith_append (mkAbs (ps ++ rs)) (mkAbs ps) ('/' :: joinSegs rs) ?_
      simp only [mkAbs]
      rw [joinSegs_append ps rs hpsne hrsne]
      simp

/-- The dispatcher's path translation on a segment-boundary request path. -/
theorem localPathOf_mkAbs (ps js rs : List (List Char)) (hps : ∀ c ∈ ps, ValidSeg c)
    (hjs : ∀ c ∈ js, ValidSeg c) (hrs : ∀ c ∈ rs, ValidSeg c) :
    localPathOf (mkAbs ps) (mkAbs js) (mkAbs (ps ++ rs)) = mkAbs (js ++ rs) := by
  unfold localPathOf
  rw [strip_mkAbs ps rs hps hrs]
  rcases Decidable.em (rs = []) with rfl | hrsne
  · rw [if_pos rfl, goJoin_mkAbs_empty js hjs, List.append_nil]
  · rw [if_neg hrsne]
    rcases Decidable.em (ps = []) with rfl | hpsne
    · rw [if_pos rfl, goJoin_mkAbs_rel js rs hjs hrs hrsne]
    · rw [if_neg hpsne, goJoin_mkAbs_abs js rs hjs hrs hrsne]

/-- The proxy-visible translation of a segment-boundary local path. -/
theorem translateForProxy_mkAbs (ps js rs : List (List Char)) (hps : ∀ c ∈ ps, ValidSeg c)
    (hjs : ∀ c ∈ js, ValidSeg c) (hrs : ∀ c ∈ rs, ValidSeg c) :
    translateForProxy (mkAbs ps) (mkAbs js) (mkAbs (js ++ rs)) = mkAbs (ps ++ rs) := by
  unfold translateForProxy
  rw [strip_mkAbs js rs hjs hrs]
  rcases Decidable.em (rs = []) with rfl | hrsne
  · rw [if_pos rfl, goJoin_mkAbs_empty ps hps, List.append_nil]
  · rw [if_neg hrsne]
    rcases Decidable.em (js = []) with rfl | hjsne
    · rw [if_pos rfl, goJoin_mkAbs_rel ps rs hps hrs hrsne]
    · rw [if_neg hjsne, goJoin_mkAbs_abs ps rs hps hrs hrsne]

/-! ## Rendering helper lemmas -/

/-- A flat-map by a pointwise-trivial substitution is the identity. -/
theorem flatMap_id_of_singleton (f : Char → List Char) :
    ∀ (l : List Char), (∀ c ∈ l, f c = [c]) → l.flatMap f = l
  | [], _ => rfl
  | x :: xs, h => by
    simp only [List.flatMap_cons, h x (by simp),
      flatMap_id_of_singleton f xs (fun c hc => h c (by simp [hc]))]
    rfl

/-- The escape-and-nbsp pipeline is the identity on strings of plain
characters. -/
theorem escNbsp_id (s : String) (h : ∀ c ∈ s.data, PlainChar c) :
    nbspAll (escapeHtml s) = s := by
  unfold nbspAll escapeHtml
  rw [flatMap_id_of_singleton escChar s.data (fun c hc => (h c hc).1)]
  rw [flatMap_id_of_singleton nbspChar s.data (fun c hc => (h c hc).2)]

/-- The escaping pipeline distributes over append. -/
theorem escNbsp_append (a b : String) :
    nbspAll (escapeHtml (a ++ b)) = nbspAll (escapeHtml a) ++ nbspAll (escapeHtml b) := by
  unfold nbspAll escapeHtml
  apply String.ext
  simp [List.flatMap_append]

/-- Every decimal digit character is plain and is not a space. -/
theorem digitChar10_plain (d : Nat) : PlainChar (digitChar10 d) := by
  rcases d with _|_|_|_|_|_|_|_|_|_|d
  all_goals first
    | decide
    | exact (show PlainChar '0' by decide)

/-- All characters produced by `natDecimalAux` over plain accumulators are
plain. -/
theorem natDecimalAux_plain : ∀ (fuel n : Nat) (acc : List Char),
    (∀ c ∈ acc, PlainChar c) → ∀ c ∈ natDecimalAux fuel n acc, PlainChar c
  | 0, _, _, hacc => hacc
  | fuel + 1, n, acc, hacc => by
    unfold natDecimalAux
    split
    · intro c hc
      rcases List.mem_cons.1 hc with rfl | hc
      · exact digitChar10_plain n
      · exact hacc c hc
    · refine natDecimalAux_plain fuel (n / 10) _ ?_
      intro c hc
      rcases List.mem_cons.1 hc with rfl | hc
      · exact digitChar10_plain (n % 10)
      · exact hacc c hc

/-- All characters of a decimal rendering are plain. -/
theorem natDecimal_plain (n : Nat) : ∀ c ∈ (natDecimal n).data, PlainChar c :=
  natDecimalAux_plain (n + 1) n [] (by simp)

/-- All characters of the `%.02f` text are plain. -/
theorem fmt2f_plain (n k : Nat) : ∀ c ∈ (fmt2f n k).data, PlainChar c := by
  unfold fmt2f
  intro c hc
  dsimp only at hc
  simp only [String.data_append] at hc
  rcases List.mem_append.1 hc with hc | hc
  · rcases List.mem_append.1 hc with hc | hc
    · exact natDecimal_plain _ c hc
    · have hcd : c = '.' := by simpa using hc
      subst hcd; decide
  · split at hc
    · simp only [String.data_append] at hc
      rcases List.mem_append.1 hc with hc | hc
      · have hcd : c = '0' := by simpa using hc
        subst hcd; decide
      · exact natDecimal_plain _ c hc
    · exact natDecimal_plain _ c hc

/-- The escaping pipeline leaves the `%.02f` text intact and only touches
the unit suffix. -/
theorem sizeCell_append (n k : Nat) (u : String) :
    nbspAll (escapeHtml (fmt2f n k ++ u)) = fmt2f n k ++ nbspAll (escapeHtml u) := by
  rw [escNbsp_append, escNbsp_id (fmt2f n k) (fmt2f_plain n k)]

/-! ## Claims -/

/-- C1: the claim states that every symlink whose target (absolute, or
relative after joining onto the link's directory) normalizes to a path
outside the jail is rejected with a client error.  The code only checks
absolute targets (main.go:379): for the request path `/ftp/sub/link` whose
local path `/home/ftp/sub/link` is a symlink with relative target
`../../../etc/passwd`, the joined target normalizes to `/etc/passwd`,
outside the jail `/home/ftp`, yet the dispatcher issues a 302 redirect to
`/ftp/etc/passwd` instead of a client error — the escape the source's own
`NOTE(jsd)` comment admits. -/
theorem c1_relative_escape_redirects :
    symlinkDecision "/ftp" "/home/ftp" "/ftp/sub/link" "../../../etc/passwd"
        = ProxiedOutcome.redirect "/ftp/etc/passwd"
      ∧ goJoin (goDir (localPathOf "/ftp" "/home/ftp" "/ftp/sub/link")) "../../../etc/passwd"
          = "/etc/passwd"
      ∧ goIsAbs "../../../etc/passwd" = false
      ∧ isWithin "/home/ftp" "/etc/passwd" = false := by decide

/-- C2: the claim states that the jail-containment test matches on whole
path segments, so `/home/ftpx` is not judged inside the jail `/home/ftp`.
The code's test is `startsWith` (main.go:24-29, used at main.go:379), a raw
byte-prefix match: it accepts the already-normalized sibling path
`/home/ftpx` as inside the jail `/home/ftp`, contradicting the claim's
required result. -/
theorem c2_jail_test_accepts_sibling :
    startsWith "/home/ftpx" "/home/ftp" = true
      ∧ goClean "/home/ftpx" = "/home/ftpx"
      ∧ isWithin "/home/ftp" "/home/ftpx" = false := by decide

/-- C3 (counterexample): the claim quantifies over every normalized path
that starts with ProxyRoot, which in this program (main.go:434) is the raw
prefix test; the normalized path `/ftpx` starts byte-wise with the proxy
root `/ftp`, but stripping `/ftp` and joining onto the jail gives
`/home/ftp/x`, which translates back to `/ftp/x`, not `/ftpx`, so the
round-trip fails. -/
theorem c3_roundtrip_counterexample :
    startsWith "/ftpx" "/ftp" = true
      ∧ goClean "/ftpx" = "/ftpx"
      ∧ localPathOf "/ftp" "/home/ftp" "/ftpx" = "/home/ftp/x"
      ∧ translateForProxy "/ftp" "/home/ftp" (localPathOf "/ftp" "/home/ftp" "/ftpx")
          = "/ftp/x"
      ∧ ("/ftp/x" : String) ≠ "/ftpx" := by decide

/-- C6: the sort mode used by a listing obeys the claimed precedence: a
non-empty `sort` query value wins over the marker file; with no query value
the marker file's first line is used; with neither the default is
name-ascending; and a marker saying `date-desc` together with
`?sort=name-asc` yields the name-ascending mode, so a two-file directory
whose marker says date-descending renders in ascending name order under
`?sort=name-asc` (and in descending date order without the override). -/
theorem c6_sort_mode_precedence : ∀ (marker : Option String) (m q : String),
    (q ≠ "" → modeUsed marker q = parseSortMode q)
      ∧ modeUsed (some m) "" = parseSortMode m
      ∧ modeUsed none "" = (sortByName, sortAscending)
      ∧ modeUsed (some "date-desc") "name-asc" = (sortByName, sortAscending)
      ∧ (generateIndexRows "/ftp" "/home/ftp" "/ftp" (some "date-desc") "name-asc"
          [⟨⟨"a", 1, 1, false⟩, false, none⟩, ⟨⟨"b", 1, 9, false⟩, false, none⟩]).map
            Row.displayName = ["a", "b"]
      ∧ (generateIndexRows "/ftp" "/home/ftp" "/ftp" (some "date-desc") ""
          [⟨⟨"a", 1, 1, false⟩, false, none⟩, ⟨⟨"b", 1, 9, false⟩, false, none⟩]).map
            Row.displayName = ["b", "a"] := by
  intro marker m q
  refine ⟨fun hq => ?_, ?_, by decide, by decide, by decide, by decide⟩
  · simp [modeUsed, sortStringOf, hq]
  · simp [modeUsed, sortStringOf]

/-- Witness for C6 at a concrete non-empty query override. -/
theorem c6_witness :
    ("name-asc" : String) ≠ ""
      ∧ modeUsed (some "date-desc") "name-asc" = (sortByName, sortAscending) :=
  ⟨by decide,
    ((c6_sort_mode_precedence (some "date-desc") "" "name-asc").1 (by decide)).trans
      (by decide)⟩

/-- C7 (counterexample): the claimed "iff" fails in both directions of
configuration.  Under the flag defaults `-p /` and `-r .` (main.go:448-449),
listing the jail root itself maps to the local path `.`, whose `baseDir` is
`.`; the raw-prefix test at main.go:296 then succeeds, so the `../` row is
rendered even though the listed directory is the jail root and not a strict
subdirectory of it.  And even with the normalized absolute jail root
`/home/ftp`, the request `/ftp/../ftpx/sub` (accepted by the raw-prefix gate
at main.go:434) lists the local directory `/home/ftpx/sub`, whose `baseDir`
`/home/ftpx` raw-prefix-matches the jail, so the `../` row is rendered
although `/home/ftpx/sub` is not a strict subdirectory of `/home/ftp`. -/
theorem c7_parent_row_counterexample :
    (localPathOf "/" "." "/" = "."
        ∧ parentRowShown "." (localPathOf "/" "." "/") = true
        ∧ isStrictSubdir "." (localPathOf "/" "." "/") = false)
      ∧ (startsWith "/ftp/../ftpx/sub" "/ftp" = true
        ∧ localPathOf "/ftp" "/home/ftp" "/ftp/../ftpx/sub" = "/home/ftpx/sub"
        ∧ parentRowShown "/home/ftp"
            (localPathOf "/ftp" "/home/ftp" "/ftp/../ftpx/sub") = true
        ∧ isStrictSubdir "/home/ftp"
            (localPathOf "/ftp" "/home/ftp" "/ftp/../ftpx/sub") = false) := by decide

/-- C4: after sorting, directories precede non-directories and entries in the
same is-directory class are ordered by the chosen key and direction.  The
sorted order is produced by the standard library's `sort.Sort`, whose
postcondition (the defining property of a sort: no later element is `Less`
than an earlier one) is taken as the hypothesis; given it, the shape of the
three comparators forces the claimed invariant for every key and both
directions. -/
theorem c4_directories_first : ∀ (k : SortBy) (d : SortDirection) (l : List DirEntry),
    List.Pairwise (fun x y => lessBy k d y x = false) (goSortEntries k d l) →
    List.Pairwise
      (fun x y => (y.attrs.isDir = true → x.attrs.isDir = true)
        ∧ (x.attrs.isDir = y.attrs.isDir → keyLe k d x.attrs y.attrs))
      (goSortEntries k d l) := by
  intro k d l h
  refine h.imp (fun {x y} hxy => ?_)
  rcases hx : x.attrs.isDir <;> rcases hy : y.attrs.isDir
  · refine ⟨fun hc => by simp at hc, fun _ => ?_⟩
    rcases k <;> rcases d <;>
      simp [lessBy, hx, hy, keyLe] at hxy ⊢ <;> first | omega | exact hxy
  · exfalso
    simp [lessBy, hx, hy] at hxy
  · exact ⟨fun _ => rfl, fun hc => by simp [hx, hy] at hc⟩
  · refine ⟨fun _ => rfl, fun _ => ?_⟩
    rcases k <;> rcases d <;>
      simp [lessBy, hx, hy, keyLe] at hxy ⊢ <;> first | omega | exact hxy

/-- Witness for C4: a concrete four-entry listing, sorted by name ascending,
satisfies the sort postcondition, and the theorem then yields the
directory-first conclusion for it. -/
theorem c4_witness :
    List.Pairwise (fun x y => lessBy sortByName sortAscending y x = false)
        (goSortEntries sortByName sortAscending
          [exFile "beta" 7, exDir "gamma", exFile "alpha" 3, exDir "delta"])
      ∧ List.Pairwise
          (fun x y => (y.attrs.isDir = true → x.attrs.isDir = true)
            ∧ (x.attrs.isDir = y.attrs.isDir → keyLe sortByName sortAscending x.attrs y.attrs))
          (goSortEntries sortByName sortAscending
            [exFile "beta" 7, exDir "gamma", exFile "alpha" 3, exDir "delta"]) :=
  ⟨by decide,
    c4_directories_first sortByName sortAscending
      [exFile "beta" 7, exDir "gamma", exFile "alpha" 3, exDir "delta"] (by decide)⟩

/-- C5 (counterexample): the claim states that entries tying under the
chosen comparison keep the order the directory read produced.  `sort.Sort`
is not stable: sorting the read result `exTies` (files `c`, `e`, `g` of
size 1, read in that order) by size ascending renders the tied entries as
`g`, `e`, `c` — the read order reversed — so a listing does not preserve
the read order among ties. -/
theorem c5_ties_reordered :
    (exTies.map (fun e => e.attrs.name) = ["a", "b", "c", "d", "e", "f", "g", "h"]
        ∧ (exTies.map (fun e => e.attrs.size)).count 1 = 3)
      ∧ (generateIndexRows "/ftp" "/home/ftp" "/ftp" none "size-asc" exTies).map Row.displayName
          = ["g", "e", "c", "a", "b", "f", "d", "h"] := by decide

/-- C10 (counterexample): the claim states a resolving symlink-to-directory
is sorted in the directory-first class exactly as a real directory would be.
But `generateIndexHtml` sorts the raw `Readdir` (lstat) entries and only
resolves symlinks inside the render loop (main.go:242-252 versus 313): for a
listing containing the regular file `a.txt` and the symlink `zlink` whose
target is a directory, the default name-ascending listing renders `a.txt`
first and `zlink/` second (with Size `-`), whereas replacing the symlink by
a real directory of the same name renders it first. -/
theorem c10_symlink_dir_not_sorted_first :
    (generateIndexRows "/ftp" "/home/ftp" "/ftp" none "" [exFile "a.txt" 3, exDirLink]).map
        (fun r => (r.displayName, r.sizeCell))
        = [("a.txt", "0.00&nbsp;KiB"), ("zlink/", "-")]
      ∧ (generateIndexRows "/ftp" "/home/ftp" "/ftp" none ""
            [exFile "a.txt" 3, exDir "zlink"]).map (fun r => (r.displayName, r.sizeCell))
          = [("zlink/", "-"), ("a.txt", "0.00&nbsp;KiB")] := by decide

/-- C10 (amended): the display attributes of a listed symlink do come from
the resolved target: a symlink entry whose target resolved to a directory is
rendered with a trailing slash on both its displayed name and its link and
with Size `-`; and when resolution fails the entry is rendered from its own
(symlink) attributes.  Only the sorting class keeps using the entry's own
`Readdir` attributes. -/
theorem c10_amended_render_uses_target :
    ∀ (proxyRoot jailRoot localPath : String) (e : DirEntry) (t : FileAttrs),
    (e.isSymlink = true → e.resolved = some t → t.isDir = true →
      renderRow proxyRoot jailRoot localPath e
        = { href := escapeHtml
              (translateForProxy proxyRoot jailRoot (goJoin localPath e.attrs.name) ++ "/")
            displayName := escapeHtml (e.attrs.name ++ "/")
            sizeCell := "-" })
      ∧ (e.resolved = none → followSymlink e = e.attrs)
      ∧ (∀ (k : SortBy) (d : SortDirection) (y : DirEntry),
          lessBy k d e y = lessBy k d { attrs := e.attrs, isSymlink := false, resolved := none } y) := by
  intro proxyRoot jailRoot localPath e t
  refine ⟨fun hs hr ht => ?_, fun hr => ?_, fun k d y => rfl⟩
  · simp [renderRow, followSymlink, hs, hr, ht, sizeCellOf, goSizeText, nbspAll, escapeHtml,
      escChar, nbspChar]
  · simp [followSymlink, hr]

/-- C5 (amended): sorting is a deterministic pure function of the read
result, and the sorted listing is a permutation of the entries the read
produced — no entry is lost or duplicated — but the relative order of
entries that tie under the chosen comparison is not preserved
(`sort.Sort` is unstable; see the counterexample). -/
theorem c5_amended_sorted_is_permutation :
    ∀ (k : SortBy) (d : SortDirection) (l : List DirEntry),
      List.Perm (goSortEntries k d l) l :=
  fun k d l => sortGo_perm (lessBy k d) l

/-- C8: every row of a rendered listing comes from a non-hidden entry of the
directory read: an entry whose name begins with `.` (including the
`.index-sort` marker itself) contributes no row. -/
theorem c8_hidden_entries_excluded :
    ∀ (proxyRoot jailRoot uPath : String) (marker : Option String) (querySort : String)
      (fis : List DirEntry) (r : Row),
      r ∈ generateIndexRows proxyRoot jailRoot uPath marker querySort fis →
      ∃ e, e ∈ fis ∧ isHiddenName e.attrs.name = false
        ∧ r = renderRow proxyRoot jailRoot (localPathOf proxyRoot jailRoot uPath) e := by
  intro pr jr up mk q fis r hr
  unfold generateIndexRows at hr
  simp only [List.mem_filterMap] at hr
  obtain ⟨e, he, hsome⟩ := hr
  by_cases hh : isHiddenName e.attrs.name = true
  · rw [if_pos hh] at hsome
    cases hsome
  · rw [if_neg hh] at hsome
    exact ⟨e,
      (sortGo_perm (lessBy (modeUsed mk q).1 (modeUsed mk q).2) fis).mem_iff.1 he,
      by simpa using hh,
      (Option.some.inj hsome).symm⟩

/-- Witness for C8: the first row of a concrete listing containing the
`.index-sort` marker originates from the non-hidden entry `a.txt`. -/
theorem c8_witness :
    ∃ e, e ∈ [exFile "a.txt" 3, exFile ".index-sort" 1]
      ∧ isHiddenName e.attrs.name = false
      ∧ ({ href := "/ftp/a.txt", displayName := "a.txt", sizeCell := "0.00&nbsp;KiB" } : Row)
          = renderRow "/ftp" "/home/ftp" (localPathOf "/ftp" "/home/ftp" "/ftp") e :=
  c8_hidden_entries_excluded "/ftp" "/home/ftp" "/ftp" none ""
    [exFile "a.txt" 3, exFile ".index-sort" 1] _ (by decide)

/-- C9: the rendered Size cell is `-` for every directory entry; for a
non-directory entry of `n` bytes (with `n` below `2^53`, where the
program's `float64` arithmetic is exact) the cell is `n` scaled by the
1024-multiple thresholds — KiB below 1 MiB, MiB below 1 GiB, GiB otherwise —
with two decimal places and a non-breaking space before the unit. -/
theorem c9_size_cell : ∀ (fa : FileAttrs),
    (fa.isDir = true → sizeCellOf fa = "-")
      ∧ (fa.isDir = false → 0 ≤ fa.size → fa.size < 2 ^ 53 →
          sizeCellOf fa = specSizeCell fa.size.toNat) := by
  intro fa
  constructor
  · intro hd
    unfold sizeCellOf goSizeText
    rw [if_pos hd]
    decide
  · intro hd h0 _
    unfold sizeCellOf goSizeText specSizeCell
    rw [if_neg (by simp [hd])]
    by_cases h1 : fa.size < 1024 * 1024
    · rw [if_pos h1, if_pos (show fa.size.toNat < 1048576 by omega), sizeCell_append]
      have : nbspAll (escapeHtml " KiB") = "&nbsp;KiB" := by decide
      rw [this]
    · rw [if_neg h1, if_neg (show ¬ fa.size.toNat < 1048576 by omega)]
      by_cases h2 : fa.size < 1024 * 1024 * 1024
      · rw [if_pos h2, if_pos (show fa.size.toNat < 1073741824 by omega), sizeCell_append]
        have : nbspAll (escapeHtml " MiB") = "&nbsp;MiB" := by decide
        rw [this]
      · rw [if_neg h2, if_neg (show ¬ fa.size.toNat < 1073741824 by omega), sizeCell_append]
        have : nbspAll (escapeHtml " GiB") = "&nbsp;GiB" := by decide
        rw [this]

/-- Witness for C9: a 2,097,152-byte file renders as `2.00&nbsp;MiB`, a
512-byte file as `0.50&nbsp;KiB`, and a directory as `-`. -/
theorem c9_witness :
    sizeCellOf { name := "m.bin", size := 2097152, modTime := 0, isDir := false }
        = "2.00&nbsp;MiB"
      ∧ sizeCellOf { name := "k.bin", size := 512, modTime := 0, isDir := false }
          = "0.50&nbsp;KiB"
      ∧ sizeCellOf { name := "d", size := 4096, modTime := 0, isDir := true } = "-" :=
  ⟨((c9_size_cell { name := "m.bin", size := 2097152, modTime := 0, isDir := false }).2
      rfl (by decide) (by decide)).trans (by decide),
    ((c9_size_cell { name := "k.bin", size := 512, modTime := 0, isDir := false }).2
      rfl (by decide) (by decide)).trans (by decide),
    (c9_size_cell { name := "d", size := 4096, modTime := 0, isDir := true }).1 rfl⟩

/-- Witness for the amended C10 at the concrete resolved symlink entry. -/
theorem c10_amended_witness :
    renderRow "/ftp" "/home/ftp" "/home/ftp" exDirLink
      = { href := escapeHtml
            (translateForProxy "/ftp" "/home/ftp" (goJoin "/home/ftp" exDirLink.attrs.name) ++ "/")
          displayName := escapeHtml (exDirLink.attrs.name ++ "/")
          sizeCell := "-" } :=
  (c10_amended_render_uses_target "/ftp" "/home/ftp" "/home/ftp" exDirLink
    { name := "zdir", size := 4096, modTime := 5, isDir := true }).1 rfl rfl rfl

/-- C3 (amended): on whole-segment boundaries the two translations are
mutually inverse: for normalized absolute roots and a request path that is
ProxyRoot itself or ProxyRoot extended by well-formed path segments,
local-translation followed by proxy-translation is the identity, and
symmetrically for local paths under JailRoot.  (As stated over the raw
byte-prefix reading of "starts with", the claim fails; see the
counterexample.) -/
theorem c3_amended_roundtrip : ∀ (ps js rs : List (List Char)),
    (∀ c ∈ ps, ValidSeg c) → (∀ c ∈ js, ValidSeg c) → (∀ c ∈ rs, ValidSeg c) →
    translateForProxy (mkAbs ps) (mkAbs js)
        (localPathOf (mkAbs ps) (mkAbs js) (mkAbs (ps ++ rs))) = mkAbs (ps ++ rs)
      ∧ localPathOf (mkAbs ps) (mkAbs js)
          (translateForProxy (mkAbs ps) (mkAbs js) (mkAbs (js ++ rs))) = mkAbs (js ++ rs) := by
  intro ps js rs hps hjs hrs
  constructor
  · rw [localPathOf_mkAbs ps js rs hps hjs hrs, translateForProxy_mkAbs ps js rs hps hjs hrs]
  · rw [translateForProxy_mkAbs ps js rs hps hjs hrs, localPathOf_mkAbs ps js rs hps hjs hrs]

/-- Witness for the amended C3 with proxy root `/ftp`, jail root
`/home/ftp`, and the request suffix `sub`. -/
theorem c3_amended_witness :
    translateForProxy "/ftp" "/home/ftp" (localPathOf "/ftp" "/home/ftp" "/ftp/sub")
        = "/ftp/sub"
      ∧ localPathOf "/ftp" "/home/ftp" (translateForProxy "/ftp" "/home/ftp" "/home/ftp/sub")
          = "/home/ftp/sub" := by
  have h := c3_amended_roundtrip [['f', 't', 'p']] [['h', 'o', 'm', 'e'], ['f', 't', 'p']]
    [['s', 'u', 'b']] (by decide) (by decide) (by decide)
  rw [show mkAbs [['f', 't', 'p']] = "/ftp" by decide,
    show mkAbs [['h', 'o', 'm', 'e'], ['f', 't', 'p']] = "/home/ftp" by decide,
    show mkAbs ([['f', 't', 'p']] ++ [['s', 'u', 'b']]) = "/ftp/sub" by decide,
    show mkAbs ([['h', 'o', 'm', 'e'], ['f', 't', 'p']] ++ [['s', 'u', 'b']]) = "/home/ftp/sub"
      by decide] at h
  exact h

/-- Helper for the parent-row analysis: `dirPart` chops at the final slash. -/
theorem dirPart_append (A B : List Char) (hB : '/' ∉ B) :
    dirPart (A ++ '/' :: B) = A ++ ['/'] := by
  unfold dirPart
  have h1 : (A ++ '/' :: B).reverse = B.reverse ++ '/' :: A.reverse := by
    rw [show ('/' :: B : List Char) = ['/'] ++ B by rfl]
    simp [List.reverse_append]
  rw [h1, List.dropWhile_append]
  have h2 : B.reverse.dropWhile (fun c => ¬ (c = '/')) = [] :=
    List.dropWhile_eq_nil_iff.2 (fun x hx => by
      simp only [decide_eq_true_eq]
      intro hcon
      exact hB (hcon ▸ List.mem_reverse.1 hx))
  rw [h2]
  simp [List.dropWhile_cons]

/-- The length of `joinSegs` grows strictly when a nonempty segment is
appended. -/
theorem joinSegs_length_lt (t : List (List Char)) (sg : List Char) (hsg : sg ≠ []) :
    (joinSegs t).length < (joinSegs (t ++ [sg])).length := by
  rcases Decidable.em (t = []) with rfl | htne
  · simp only [List.nil_append, joinSegs]
    cases sg with
    | nil => exact absurd rfl hsg
    | cons c cs => simp
  · rw [joinSegs_append t [sg] htne (by simp)]
    simp

/-- `path.Dir` of a normalized absolute path drops the last segment. -/
theorem goDir_mkAbs (ss : List (List Char)) (h : ∀ c ∈ ss, ValidSeg c) (hne : ss ≠ []) :
    goDir (mkAbs ss) = mkAbs ss.dropLast := by
  rcases List.eq_nil_or_concat ss with rfl | ⟨t, sg, rfl⟩
  · exact absurd rfl hne
  · rw [List.concat_eq_append] at h ⊢
    have hsg : '/' ∉ sg := (h sg (by simp)).2.1
    unfold goDir
    rcases Decidable.em (t = []) with rfl | htne
    · rw [show (mkAbs ([] ++ [sg])).data = [] ++ '/' :: sg by simp [mkAbs, joinSegs]]
      rw [dirPart_append [] sg hsg]
      rw [show (([] : List Char) ++ ['/']) = '/' :: ([] : List Char) by simp]
      rw [goClean_rooted [] (by simp [splitSlash])]
      simp [splitSlash, mkAbs]
    · rw [show (mkAbs (t ++ [sg])).data = ('/' :: joinSegs t) ++ '/' :: sg by
        simp [mkAbs, joinSegs_append t [sg] htne (by simp), joinSegs]]
      rw [dirPart_append ('/' :: joinSegs t) sg hsg]
      rw [show (('/' :: joinSegs t) ++ ['/'] : List Char)
          = '/' :: (joinSegs t ++ '/' :: []) by simp]
      have hvt : ∀ c ∈ t, ValidSeg c := fun c hc => h c (List.mem_append_left [sg] hc)
      have hsp : splitSlash (joinSegs t ++ '/' :: []) = t ++ splitSlash [] :=
        splitSlash_joinSegs_append t htne (segs_slashfree t hvt) []
      have hpre : ∀ c ∈ splitSlash (joinSegs t ++ '/' :: []), c = [] ∨ ValidSeg c := by
        rw [hsp]
        intro c hc
        rcases List.mem_append.1 hc with hc | hc
        · exact Or.inr (hvt c hc)
        · exact Or.inl (by simpa [splitSlash] using hc)
      rw [goClean_rooted _ hpre]
      rw [hsp, show splitSlash ([] : List Char) = [[]] from rfl, List.filter_append,
        filter_valid_segs t hvt]
      simp

/-- `startsWith` fails on a strictly shorter string. -/
theorem startsWith_false_of_shorter (s t : String) (h : s.data.length < t.data.length) :
    startsWith s t = false := by
  unfold startsWith
  rw [if_pos h]

/-- The components of a normalized absolute path are its segments. -/
theorem pathSegs_mkAbs (ss : List (List Char)) (h : ∀ c ∈ ss, ValidSeg c) :
    pathSegs (mkAbs ss) = ss := by
  unfold pathSegs
  rw [show (mkAbs ss).data = '/' :: joinSegs ss from rfl]
  rw [show splitSlash ('/' :: joinSegs ss) = [] :: splitSlash (joinSegs ss) from rfl]
  rcases Decidable.em (ss = []) with rfl | hne
  · simp [joinSegs, splitSlash]
  · rw [splitSlash_joinSegs ss hne (segs_slashfree ss h)]
    simp only [List.filter_cons]
    rw [filter_valid_segs ss h]
    simp

/-- A segment list is a prefix of itself extended. -/
theorem segPrefixOf_self_append : ∀ (js rs : List (List Char)),
    segPrefixOf js (js ++ rs) = true
  | [], _ => rfl
  | a :: as, rs => by
    simp only [List.cons_append]
    unfold segPrefixOf
    simp [segPrefixOf_self_append as rs]

/-- C7 (amended): the equivalence holds only on the normalized in-jail
region: when the jail root is a normalized absolute path and the listed
directory is the jail root itself or `JailRoot/<well-formed segments>`
(the local path of a normalized request that stays inside the jail), the
`../` row is rendered iff the listed directory is a strict subdirectory of
the jail root — so the jail root's own listing has no row and every listing
of `JailRoot/<segments>` has one.  Outside this region the equivalence
fails: under the flag default `-r .`, and for directories outside the jail
reached through dot-dot request paths onto a raw-prefix sibling (such as
`/ftp/../ftpx/sub` listing `/home/ftpx/sub`), the row is rendered although
the listed directory is not a strict subdirectory; see the
counterexample. -/
theorem c7_amended_parent_row : ∀ (js rs : List (List Char)),
    (∀ c ∈ js, ValidSeg c) → (∀ c ∈ rs, ValidSeg c) → js ≠ [] →
    (parentRowShown (mkAbs js) (mkAbs (js ++ rs)) = true ↔ rs ≠ [])
      ∧ (isStrictSubdir (mkAbs js) (mkAbs (js ++ rs)) = true ↔ rs ≠ []) := by
  intro js rs hjs hrs hjsne
  have hall : ∀ c ∈ js ++ rs, ValidSeg c := by
    intro c hc
    rcases List.mem_append.1 hc with hc | hc
    · exact hjs c hc
    · exact hrs c hc
  have happne : js ++ rs ≠ [] := by
    intro hcon
    exact hjsne (List.append_eq_nil.1 hcon).1
  constructor
  · -- the parent-row test
    have hlast : ¬ ((mkAbs (js ++ rs)).data.getLast? = some '/') := by
      rcases List.eq_nil_or_concat (js ++ rs) with hzero | ⟨t, sg, hconc⟩
      · exact absurd hzero happne
      · rw [List.concat_eq_append] at hconc
        have hsgv : ValidSeg sg := hall sg (by rw [hconc]; simp)
        rw [hconc]
        have hdata : (mkAbs (t ++ [sg])).data = ('/' :: joinSegs t ++ ['/']) ++ sg ∨
            (mkAbs (t ++ [sg])).data = ['/'] ++ sg := by
          rcases Decidable.em (t = []) with rfl | htne
          · exact Or.inr (by simp [mkAbs, joinSegs])
          · refine Or.inl ?_
            simp [mkAbs, joinSegs_append t [sg] htne (by simp), joinSegs]
        have hlast2 : ∀ (X : List Char), ¬ ((X ++ sg).getLast? = some '/') := by
          intro X hcon
          rw [List.getLast?_append, List.getLast?_eq_getLast sg hsgv.1] at hcon
          have hcon2 : some (sg.getLast hsgv.1) = some '/' := hcon
          exact hsgv.2.1 ((Option.some.inj hcon2) ▸ List.getLast_mem hsgv.1)
        rcases hdata with hd | hd <;> rw [hd] <;> exact hlast2 _
    have hbd : baseDirOf (mkAbs (js ++ rs)) = mkAbs ((js ++ rs).dropLast) := by
      unfold baseDirOf
      rw [if_neg hlast, goDir_mkAbs (js ++ rs) hall happne,
        if_neg (mkAbs_ne_empty ((js ++ rs).dropLast))]
    unfold parentRowShown
    rw [hbd]
    rcases Decidable.em (rs = []) with rfl | hrsne
    · rw [List.append_nil]
      rcases List.eq_nil_or_concat js with hzero | ⟨t, sg, hconc⟩
      · exact absurd hzero hjsne
      · rw [List.concat_eq_append] at hconc
        have hsgv : ValidSeg sg := hjs sg (by rw [hconc]; simp)
        rw [hconc, List.dropLast_concat]
        rw [startsWith_false_of_shorter _ _ (by
          simpa [mkAbs, Nat.succ_lt_succ_iff] using joinSegs_length_lt t sg hsgv.1)]
        simp
    · rw [List.dropLast_append]
      rw [if_neg (by simpa using hrsne)]
      have hsw : startsWith (mkAbs (js ++ rs.dropLast)) (mkAbs js) = true := by
        rcases Decidable.em (rs.dropLast = []) with hdl | hdl
        · rw [hdl, List.append_nil]
          exact startsWith_of_append _ _ [] (by simp)
        · refine startsWith_of_append _ _ ('/' :: joinSegs rs.dropLast) ?_
          simp only [mkAbs]
          rw [joinSegs_append js rs.dropLast hjsne hdl]
          simp
      rw [hsw]
      simp [hrsne]
  · -- the strict-subdirectory test
    unfold isStrictSubdir isWithin
    rw [pathSegs_mkAbs js hjs, pathSegs_mkAbs (js ++ rs) hall,
      segPrefixOf_self_append js rs]
    have habs : ∀ (ss : List (List Char)), goIsAbs (mkAbs ss) = true := fun ss => rfl
    rcases Decidable.em (rs = []) with rfl | hrsne
    · simp [habs]
    · have hne2 : ¬ (mkAbs (js ++ rs) = mkAbs js) := by
        intro hcon
        have := congrArg String.data hcon
        simp only [mkAbs, List.cons.injEq] at this
        have hlen := congrArg List.length this.2
        rw [joinSegs_append js rs hjsne hrsne] at hlen
        simp at hlen
      simp [hne2, hrsne, habs]

/-- Witness for the amended C7 with jail root `/home/ftp`: listing the jail
root shows no `../` row, listing `/home/ftp/sub` shows one. -/
theorem c7_amended_witness :
    (parentRowShown "/home/ftp" "/home/ftp" = false
        ∧ isStrictSubdir "/home/ftp" "/home/ftp" = false)
      ∧ (parentRowShown "/home/ftp" "/home/ftp/sub" = true
        ∧ isStrictSubdir "/home/ftp" "/home/ftp/sub" = true) := by
  have h1 := c7_amended_parent_row [['h', 'o', 'm', 'e'], ['f', 't', 'p']] []
    (by decide) (by decide) (by decide)
  have h2 := c7_amended_parent_row [['h', 'o', 'm', 'e'], ['f', 't', 'p']] [['s', 'u', 'b']]
    (by decide) (by decide) (by decide)
  rw [show mkAbs [['h', 'o', 'm', 'e'], ['f', 't', 'p']] = "/home/ftp" by decide] at h1 h2
  rw [show mkAbs ([['h', 'o', 'm', 'e'], ['f', 't', 'p']] ++ []) = "/home/ftp" by decide] at h1
  rw [show mkAbs ([['h', 'o', 'm', 'e'], ['f', 't', 'p']] ++ [['s', 'u', 'b']])
      = "/home/ftp/sub" by decide] at h2
  refine ⟨⟨?_, ?_⟩, ?_, ?_⟩
  · rcases hb : parentRowShown "/home/ftp" "/home/ftp" with _ | _
    · rfl
    · exact absurd (h1.1.1 hb) (by simp)
  · rcases hb : isStrictSubdir "/home/ftp" "/home/ftp" with _ | _
    · rfl
    · exact absurd (h1.2.1 hb) (by simp)
  · exact h2.1.2 (by simp)
  · exact h2.2.2 (by simp)
